import Mathlib

/-!
Verification of the RingBuffer library (RingBuffer.c / RingBuffer.h).

The C code stores fixed-size cells in a caller-supplied region and keeps
two indices, head (next write position) and tail (next read position),
both counted in cells.  Every byte offset in the C code is computed as
cell index times cell size, so the embedding models the storage as a
list of cells (one Nat per cell) and performs all copies at cell
granularity.  The out parameter of the watch and read family is a raw
pointer that is only checked against NULL; it is modelled as a Bool
(outValid, true when the pointer is non-null) plus the list of cells the
call copies out.  An unbound buffer (rb->buf == NULL) is modelled with
buf = none.  All index arithmetic in the C code is on size_t and u16
values that remain far below their wrap points in every state considered
by the theorems below (size comes from a u16 argument and head, tail
stay below size in bound states), so plain Nat arithmetic with truncated
subtraction coincides with the machine arithmetic there.
-/

/-- Status enum RINGBUF_STATUS from RingBuffer.h. -/
inductive RINGBUF_STATUS where
  | RINGBUF_OK
  | RINGBUF_ERR
  | RINGBUF_PARAM_ERR
  | RINGBUF_OVERFLOW
deriving DecidableEq, Repr

open RINGBUF_STATUS

/-- Struct RINGBUF_t from RingBuffer.h.  buf is the storage (none when the
buffer is unbound, some cells otherwise); tail and head are the read and
write indices in cells; size is the capacity in cells; cell_size is the
byte stride of one cell (it cancels out of every cell-granularity copy,
so it is carried but plays no role in the cell-level semantics). -/
structure RINGBUF where
  buf : Option (List Nat)
  tail : Nat
  head : Nat
  size : Nat
  cell_size : Nat
deriving DecidableEq, Repr

/-- memcpy of xs into l starting at cell position p (cell granularity):
models memcpy(&buf[p*cell_size], xs, xs.length*cell_size). -/
def writeAt (l : List Nat) (p : Nat) (xs : List Nat) : List Nat :=
  match xs with
  | [] => l
  | x :: rest => writeAt (l.set p x) (p + 1) rest

/-- memcpy of n cells out of l starting at cell position p (cell
granularity): models memcpy(out, &buf[p*cell_size], n*cell_size). -/
def readAt (l : List Nat) (p n : Nat) : List Nat :=
  (List.range n).map (fun i => l.getD (p + i) 0)

/-- RingBuf_Clear (RingBuffer.c lines 43-47): ParamError when unbound,
otherwise head = tail = 0; the storage contents are untouched. -/
def RingBuf_Clear (rb : RINGBUF) : RINGBUF_STATUS × RINGBUF :=
  match rb.buf with
  | none => (RINGBUF_PARAM_ERR, rb)
  | some _ => (RINGBUF_OK, { rb with head := 0, tail := 0 })

/-- RingBuf_Init (RingBuffer.c lines 28-34): stores size, cell_size and
the storage pointer, calls RingBuf_Clear discarding its status, then
returns Ok exactly when the stored pointer is non-null. -/
def RingBuf_Init (buf : Option (List Nat)) (size cellsize : Nat) (rb : RINGBUF) :
    RINGBUF_STATUS × RINGBUF :=
  let rb1 : RINGBUF := { rb with size := size, cell_size := cellsize, buf := buf }
  let rb2 := (RingBuf_Clear rb1).2
  (if rb2.buf.isSome then RINGBUF_OK else RINGBUF_PARAM_ERR, rb2)

/-- RingBuf_Available (RingBuffer.c lines 56-63): the occupied cell count
written through the len out parameter (modelled as the Option Nat
component), ParamError when unbound. -/
def RingBuf_Available (rb : RINGBUF) : RINGBUF_STATUS × Option Nat :=
  match rb.buf with
  | none => (RINGBUF_PARAM_ERR, none)
  | some _ =>
      (RINGBUF_OK,
        some (if rb.head < rb.tail then rb.size - rb.tail + rb.head
              else rb.head - rb.tail))

/-- RingBuf_BytePut (RingBuffer.c lines 72-78): writes one byte at index
head and increments head with wrap to 0 at size.  The C function indexes
the storage directly at head (byte granularity), which coincides with
the cell list exactly when cell_size = 1, the way this entry point is
used. -/
def RingBuf_BytePut (data : Nat) (rb : RINGBUF) : RINGBUF_STATUS × RINGBUF :=
  match rb.buf with
  | none => (RINGBUF_PARAM_ERR, rb)
  | some l =>
      (RINGBUF_OK,
        { rb with
          buf := some (l.set rb.head data)
          head := if rb.head + 1 ≥ rb.size then 0 else rb.head + 1 })

/-- RingBuf_DataPut (RingBuffer.c lines 98-124): ParamError when unbound,
Overflow when len exceeds size, otherwise the two-segment copy.  With
space = size - head, when len exceeds space the first space cells of the
input land at head, head resets to 0, and the remaining len - space
cells land at 0; finally head advances by the remaining length and is
reset to 0 when it reaches size. -/
def RingBuf_DataPut (input : List Nat) (len : Nat) (rb : RINGBUF) :
    RINGBUF_STATUS × RINGBUF :=
  match rb.buf with
  | none => (RINGBUF_PARAM_ERR, rb)
  | some l =>
      if len > rb.size then (RINGBUF_OVERFLOW, rb)
      else
        let space := rb.size - rb.head
        if len > space then
          let l1 := writeAt l rb.head (input.take space)
          let len2 := len - space
          let l2 := writeAt l1 0 ((input.drop space).take len2)
          (RINGBUF_OK,
            { rb with
              buf := some l2
              head := if len2 ≥ rb.size then 0 else len2 })
        else
          let l2 := writeAt l rb.head (input.take len)
          (RINGBUF_OK,
            { rb with
              buf := some l2
              head := if rb.head + len ≥ rb.size then 0 else rb.head + len })

/-- RingBuf_CellPut (RingBuffer.c lines 86-88). -/
def RingBuf_CellPut (data : Nat) (rb : RINGBUF) : RINGBUF_STATUS × RINGBUF :=
  RingBuf_DataPut [data] 1 rb

/-- RingBuf_ByteWatch (RingBuffer.c lines 183-187): ParamError exactly
when the out pointer is null; otherwise copies the cell at tail.  Note
the C function does not check rb->buf against NULL. -/
def RingBuf_ByteWatch (outValid : Bool) (rb : RINGBUF) :
    RINGBUF_STATUS × Option Nat :=
  if outValid then (RINGBUF_OK, some ((rb.buf.getD []).getD rb.tail 0))
  else (RINGBUF_PARAM_ERR, none)

/-- RingBuf_DataWatch (RingBuffer.c lines 210-234): ParamError when the
out pointer is null, Overflow when len exceeds size, otherwise the
two-segment copy from a local cursor starting at tail (tail itself is
never written; the C function only writes through the out pointer and
locals, which the pure result type reflects).  Note the C function does
not check rb->buf against NULL. -/
def RingBuf_DataWatch (outValid : Bool) (len : Nat) (rb : RINGBUF) :
    RINGBUF_STATUS × List Nat :=
  if outValid then
    if len > rb.size then (RINGBUF_OVERFLOW, [])
    else
      let space := rb.size - rb.tail
      let l := rb.buf.getD []
      if len > space then
        (RINGBUF_OK, readAt l rb.tail space ++ readAt l 0 (len - space))
      else
        (RINGBUF_OK, readAt l rb.tail len)
  else (RINGBUF_PARAM_ERR, [])

/-- RingBuf_CellWatch (RingBuffer.c lines 197-199). -/
def RingBuf_CellWatch (outValid : Bool) (rb : RINGBUF) :
    RINGBUF_STATUS × List Nat :=
  RingBuf_DataWatch outValid 1 rb

/-- RingBuf_ByteRead (RingBuffer.c lines 133-142): ParamError when
unbound, then ByteWatch; on success tail advances by 1 with reset to 0
at size. -/
def RingBuf_ByteRead (outValid : Bool) (rb : RINGBUF) :
    RINGBUF_STATUS × Option Nat × RINGBUF :=
  match rb.buf with
  | none => (RINGBUF_PARAM_ERR, none, rb)
  | some _ =>
      let res := RingBuf_ByteWatch outValid rb
      if res.1 ≠ RINGBUF_OK then (res.1, res.2, rb)
      else
        (res.1, res.2,
          { rb with tail := if rb.tail + 1 ≥ rb.size then 0 else rb.tail + 1 })

/-- RingBuf_DataRead (RingBuffer.c lines 162-173): ParamError when
unbound, then DataWatch; on success the C code runs tail += len and then
resets tail to 0 whenever tail reached or passed size (it does not
subtract size). -/
def RingBuf_DataRead (outValid : Bool) (len : Nat) (rb : RINGBUF) :
    RINGBUF_STATUS × List Nat × RINGBUF :=
  match rb.buf with
  | none => (RINGBUF_PARAM_ERR, [], rb)
  | some _ =>
      let res := RingBuf_DataWatch outValid len rb
      if res.1 ≠ RINGBUF_OK then (res.1, res.2, rb)
      else
        (res.1, res.2,
          { rb with
            tail := if rb.tail + len ≥ rb.size then 0 else rb.tail + len })

/-- RingBuf_CellRead (RingBuffer.c lines 150-152). -/
def RingBuf_CellRead (outValid : Bool) (rb : RINGBUF) :
    RINGBUF_STATUS × List Nat × RINGBUF :=
  RingBuf_DataRead outValid 1 rb

/-- State after a sequence of put_many calls, one per chunk, each with
its own length (no interleaved reads). -/
def putSeq (rb : RINGBUF) (chunks : List (List Nat)) : RINGBUF :=
  chunks.foldl (fun s c => (RingBuf_DataPut c c.length s).2) rb

/-- State after a sequence of read_many calls with the given lengths and
a valid out pointer. -/
def readSeq (rb : RINGBUF) (lens : List Nat) : RINGBUF :=
  lens.foldl (fun s n => (RingBuf_DataRead true n s).2.2) rb

/-- Concatenated output of a sequence of read_many calls with the given
lengths and a valid out pointer. -/
def readSeqOut (rb : RINGBUF) (lens : List Nat) : List Nat :=
  match lens with
  | [] => []
  | n :: rest =>
      (RingBuf_DataRead true n rb).2.1 ++
        readSeqOut (RingBuf_DataRead true n rb).2.2 rest

/-- The cells a length len read starting at cell tail should deliver:
positions are taken modulo size (reference reading used to state what
the two-segment copy computes). -/
def wrapRead (l : List Nat) (size tail len : Nat) : List Nat :=
  (List.range len).map (fun i => l.getD ((tail + i) % size) 0)

/-- A freshly initialized bound buffer with capacity 3 and cell size 1. -/
def rbFresh3 : RINGBUF := ⟨some [0, 0, 0], 0, 0, 3, 1⟩

/-- A freshly initialized bound buffer with capacity 4 and cell size 1. -/
def rbFresh4 : RINGBUF := ⟨some [0, 0, 0, 0], 0, 0, 4, 1⟩

/-- The capacity 3 buffer after one put of the single cell 9 (reachable
from rbFresh3, holding one occupied cell). -/
def rbMid3 : RINGBUF := ⟨some [9, 0, 0], 0, 1, 3, 1⟩

/-- A buffer record with stale indices, not yet initialized. -/
def rbStale : RINGBUF := ⟨some [7], 2, 3, 9, 9⟩

/-- A successful put (bound buffer, len at most size, head in range)
returns Ok, advances head by len modulo size, and leaves tail, size,
cell_size and boundness unchanged. -/
lemma dataPut_state (input : List Nat) (len : Nat) (rb : RINGBUF) (l : List Nat)
    (hb : rb.buf = some l) (hlen : len ≤ rb.size) (hh : rb.head < rb.size) :
    (RingBuf_DataPut input len rb).1 = RINGBUF_OK ∧
    (RingBuf_DataPut input len rb).2.head = (rb.head + len) % rb.size ∧
    (RingBuf_DataPut input len rb).2.tail = rb.tail ∧
    (RingBuf_DataPut input len rb).2.size = rb.size ∧
    (RingBuf_DataPut input len rb).2.cell_size = rb.cell_size ∧
    (RingBuf_DataPut input len rb).2.buf.isSome = true := by
  simp only [RingBuf_DataPut, hb]
  rw [if_neg (by omega : ¬ len > rb.size)]
  by_cases hsp : len > rb.size - rb.head
  · rw [if_pos hsp]
    rw [if_neg (by omega : ¬ len - (rb.size - rb.head) ≥ rb.size)]
    refine ⟨rfl, ?_, rfl, rfl, rfl, rfl⟩
    show len - (rb.size - rb.head) = (rb.head + len) % rb.size
    rw [Nat.mod_eq_sub_mod (by omega : rb.size ≤ rb.head + len),
      Nat.mod_eq_of_lt (by omega)]
    omega
  · rw [if_neg hsp]
    by_cases he : rb.head + len ≥ rb.size
    · rw [if_pos he]
      refine ⟨rfl, ?_, rfl, rfl, rfl, rfl⟩
      show 0 = (rb.head + len) % rb.size
      have hs : rb.head + len = rb.size := by omega
      rw [hs, Nat.mod_self]
    · rw [if_neg he]
      refine ⟨rfl, ?_, rfl, rfl, rfl, rfl⟩
      show rb.head + len = (rb.head + len) % rb.size
      rw [Nat.mod_eq_of_lt (by omega)]

/-- Any put leaves tail, size and cell_size unchanged, on every path
(success, Overflow, unbound). -/
lemma dataPut_frame (input : List Nat) (len : Nat) (rb : RINGBUF) :
    (RingBuf_DataPut input len rb).2.tail = rb.tail ∧
    (RingBuf_DataPut input len rb).2.size = rb.size ∧
    (RingBuf_DataPut input len rb).2.cell_size = rb.cell_size := by
  obtain ⟨b, t, h, s, c⟩ := rb
  rcases b with _ | l
  · simp [RingBuf_DataPut]
  · simp only [RingBuf_DataPut]
    split
    · simp
    · split <;> simp

/-- Any read leaves head, the storage, size and cell_size unchanged, on
every path. -/
lemma dataRead_frame (outValid : Bool) (len : Nat) (rb : RINGBUF) :
    (RingBuf_DataRead outValid len rb).2.2.head = rb.head ∧
    (RingBuf_DataRead outValid len rb).2.2.buf = rb.buf ∧
    (RingBuf_DataRead outValid len rb).2.2.size = rb.size ∧
    (RingBuf_DataRead outValid len rb).2.2.cell_size = rb.cell_size := by
  obtain ⟨b, t, h, s, c⟩ := rb
  rcases b with _ | l
  · simp [RingBuf_DataRead]
  · simp only [RingBuf_DataRead]
    split
    · simp
    · simp

/-- On a bound buffer, read returns exactly the status and the copied
data of the underlying watch. -/
lemma dataRead_watch (outValid : Bool) (len : Nat) (rb : RINGBUF) (l : List Nat)
    (hb : rb.buf = some l) :
    (RingBuf_DataRead outValid len rb).1 = (RingBuf_DataWatch outValid len rb).1 ∧
    (RingBuf_DataRead outValid len rb).2.1 = (RingBuf_DataWatch outValid len rb).2 := by
  simp only [RingBuf_DataRead, hb]
  split <;> exact ⟨rfl, rfl⟩

/-- A read that stays within the tail segment (tail + len at most size)
on a bound buffer returns Ok, copies the len cells starting at tail, and
advances tail by len modulo size, leaving everything else unchanged.
In this regime the reset-to-zero update of the C code coincides with the
modular advance. -/
lemma dataRead_state (len : Nat) (rb : RINGBUF) (l : List Nat)
    (hb : rb.buf = some l) (hfit : rb.tail + len ≤ rb.size) :
    (RingBuf_DataRead true len rb).1 = RINGBUF_OK ∧
    (RingBuf_DataRead true len rb).2.1 = readAt l rb.tail len ∧
    (RingBuf_DataRead true len rb).2.2.tail = (rb.tail + len) % rb.size ∧
    (RingBuf_DataRead true len rb).2.2.head = rb.head ∧
    (RingBuf_DataRead true len rb).2.2.size = rb.size ∧
    (RingBuf_DataRead true len rb).2.2.buf = rb.buf ∧
    (RingBuf_DataRead true len rb).2.2.cell_size = rb.cell_size := by
  have hw : RingBuf_DataWatch true len rb = (RINGBUF_OK, readAt l rb.tail len) := by
    simp only [RingBuf_DataWatch, hb, if_true, Option.getD_some]
    rw [if_neg (by omega : ¬ len > rb.size),
      if_neg (by omega : ¬ len > rb.size - rb.tail)]
  simp only [RingBuf_DataRead, hb, hw]
  rw [if_neg (by simp)]
  refine ⟨rfl, rfl, ?_, rfl, rfl, by simp [hb], rfl⟩
  show (if rb.tail + len ≥ rb.size then 0 else rb.tail + len) = (rb.tail + len) % rb.size
  by_cases he : rb.tail + len ≥ rb.size
  · rw [if_pos he]
    have hs : rb.tail + len = rb.size := by omega
    rw [hs, Nat.mod_self]
  · rw [if_neg he]
    rw [Nat.mod_eq_of_lt (by omega)]

/-- A sequence of puts on a bound buffer, each of length at most size,
advances head by the total length modulo size and leaves tail, size,
cell_size and boundness unchanged. -/
lemma putSeq_state : ∀ (chunks : List (List Nat)) (rb : RINGBUF),
    rb.buf.isSome = true → 0 < rb.size → rb.head < rb.size →
    (∀ c ∈ chunks, c.length ≤ rb.size) →
    (putSeq rb chunks).head = (rb.head + (chunks.map List.length).sum) % rb.size ∧
    (putSeq rb chunks).tail = rb.tail ∧
    (putSeq rb chunks).size = rb.size ∧
    (putSeq rb chunks).buf.isSome = true ∧
    (putSeq rb chunks).cell_size = rb.cell_size := by
  intro chunks
  induction chunks with
  | nil =>
      intro rb hb hs hh _
      simp only [putSeq, List.foldl_nil, List.map_nil, List.sum_nil, Nat.add_zero]
      exact ⟨(Nat.mod_eq_of_lt hh).symm, trivial, trivial, hb, trivial⟩
  | cons c rest ih =>
      intro rb hb hs hh hlen
      obtain ⟨l, hl⟩ := Option.isSome_iff_exists.mp hb
      have hcl : c.length ≤ rb.size := hlen c (by simp)
      obtain ⟨_, hhd, htl, hsz, hcs, hsome⟩ := dataPut_state c c.length rb l hl hcl hh
      have hstep : putSeq rb (c :: rest) =
          putSeq (RingBuf_DataPut c c.length rb).2 rest := rfl
      have ihh := ih (RingBuf_DataPut c c.length rb).2 hsome
        (by rw [hsz]; exact hs)
        (by rw [hhd, hsz]; exact Nat.mod_lt _ hs)
        (by intro d hd; rw [hsz]; exact hlen d (by simp [hd]))
      refine ⟨?_, ?_, ?_, ?_, ?_⟩
      · rw [hstep, ihh.1, hhd, hsz, Nat.mod_add_mod]
        have hsum : (List.map List.length (c :: rest)).sum =
            c.length + (List.map List.length rest).sum := by simp
        rw [hsum, ← Nat.add_assoc]
      · rw [hstep, ihh.2.1, htl]
      · rw [hstep, ihh.2.2.1, hsz]
      · exact ihh.2.2.2.1
      · rw [hstep, ihh.2.2.2.2, hcs]

/-- A sequence of reads on a bound buffer whose total length fits in the
segment from tail to size advances tail by the total length modulo size
and leaves head, the storage, size and cell_size unchanged.  (In this
regime each single read stays within the segment, so the reset-to-zero
update of the C code agrees with the modular advance.) -/
lemma readSeq_state : ∀ (lens : List Nat) (rb : RINGBUF),
    rb.buf.isSome = true → 0 < rb.size → rb.tail < rb.size →
    rb.tail + lens.sum ≤ rb.size →
    (readSeq rb lens).tail = (rb.tail + lens.sum) % rb.size ∧
    (readSeq rb lens).head = rb.head ∧
    (readSeq rb lens).size = rb.size ∧
    (readSeq rb lens).buf = rb.buf ∧
    (readSeq rb lens).cell_size = rb.cell_size := by
  intro lens
  induction lens with
  | nil =>
      intro rb _ hs ht _
      simp only [readSeq, List.foldl_nil, List.sum_nil, Nat.add_zero]
      exact ⟨(Nat.mod_eq_of_lt ht).symm, trivial, trivial, trivial, trivial⟩
  | cons n rest ih =>
      intro rb hb hs ht hfit
      obtain ⟨l, hl⟩ := Option.isSome_iff_exists.mp hb
      have hfitc : rb.tail + (n + rest.sum) ≤ rb.size := by
        simpa using hfit
      have hfit1 : rb.tail + n ≤ rb.size := by omega
      obtain ⟨_, _, htl, hhd, hsz, hbf, hcs⟩ := dataRead_state n rb l hl hfit1
      have hstep : readSeq rb (n :: rest) =
          readSeq (RingBuf_DataRead true n rb).2.2 rest := rfl
      have hfit2 : (RingBuf_DataRead true n rb).2.2.tail + rest.sum ≤
          (RingBuf_DataRead true n rb).2.2.size := by
        rw [htl, hsz]
        rcases Nat.lt_or_ge (rb.tail + n) rb.size with hlt | hge
        · rw [Nat.mod_eq_of_lt hlt]; omega
        · have heq : rb.tail + n = rb.size := by omega
          rw [heq, Nat.mod_self]; omega
      have ihh := ih (RingBuf_DataRead true n rb).2.2
        (by rw [hbf]; exact hb)
        (by rw [hsz]; exact hs)
        (by rw [hsz]; rw [htl]; exact Nat.mod_lt _ hs)
        hfit2
      refine ⟨?_, ?_, ?_, ?_, ?_⟩
      · rw [hstep, ihh.1, htl, hsz, Nat.mod_add_mod]
        have hsum : (n :: rest).sum = n + rest.sum := by simp
        rw [hsum, ← Nat.add_assoc]
      · rw [hstep, ihh.2.1, hhd]
      · rw [hstep, ihh.2.2.1, hsz]
      · rw [hstep, ihh.2.2.2.1, hbf]
      · rw [hstep, ihh.2.2.2.2, hcs]

/-- When the requested segment does not cross the end of the region, the
contiguous copy agrees with modular indexing from tail. -/
lemma readAt_eq_wrapRead_of_fit (l : List Nat) (size tail len : Nat)
    (hfit : tail + len ≤ size) :
    readAt l tail len = wrapRead l size tail len := by
  unfold readAt wrapRead
  apply List.ext_getElem (by simp)
  intro i h1 h2
  have hi : i < len := by simpa using h1
  simp only [List.getElem_map, List.getElem_range]
  rw [Nat.mod_eq_of_lt (by omega : tail + i < size)]

/-- When the requested segment crosses the end of the region, the
two-segment copy (the tail segment up to the end, then the remainder
from position 0) agrees with modular indexing from tail. -/
lemma readAt_append_eq_wrapRead (l : List Nat) (size tail len : Nat)
    (ht : tail < size) (hlen : len ≤ size) (hsp : len > size - tail) :
    readAt l tail (size - tail) ++ readAt l 0 (len - (size - tail)) =
      wrapRead l size tail len := by
  apply List.ext_getElem (by simp [readAt, wrapRead]; omega)
  intro i h1 h2
  have hi : i < len := by simpa [wrapRead] using h2
  have hlen1 : (readAt l tail (size - tail)).length = size - tail := by simp [readAt]
  simp only [wrapRead, List.getElem_map, List.getElem_range]
  by_cases hc : i < size - tail
  · rw [List.getElem_append_left (by omega)]
    simp only [readAt, List.getElem_map, List.getElem_range]
    rw [Nat.mod_eq_of_lt (by omega : tail + i < size)]
  · rw [List.getElem_append_right (by simp [readAt]; omega)]
    simp only [readAt, List.getElem_map, List.getElem_range, List.length_map,
      List.length_range]
    rw [Nat.mod_eq_sub_mod (by omega : size ≤ tail + i),
      Nat.mod_eq_of_lt (by omega : tail + i - size < size)]
    congr 1
    omega

/-- Clear keeps both indices inside the capacity. -/
lemma clear_inv (rb : RINGBUF) (hs : 0 < rb.size) (hh : rb.head < rb.size)
    (ht : rb.tail < rb.size) :
    (RingBuf_Clear rb).2.head < rb.size ∧ (RingBuf_Clear rb).2.tail < rb.size ∧
    (RingBuf_Clear rb).2.size = rb.size := by
  rcases hbuf : rb.buf with _ | l
  · simp only [RingBuf_Clear, hbuf]
    exact ⟨hh, ht, trivial⟩
  · simp only [RingBuf_Clear, hbuf]
    exact ⟨hs, hs, trivial⟩

/-- BytePut keeps both indices inside the capacity. -/
lemma bytePut_inv (data : Nat) (rb : RINGBUF) (hs : 0 < rb.size)
    (hh : rb.head < rb.size) (ht : rb.tail < rb.size) :
    (RingBuf_BytePut data rb).2.head < rb.size ∧
    (RingBuf_BytePut data rb).2.tail < rb.size ∧
    (RingBuf_BytePut data rb).2.size = rb.size := by
  rcases hbuf : rb.buf with _ | l
  · simp only [RingBuf_BytePut, hbuf]
    exact ⟨hh, ht, trivial⟩
  · simp only [RingBuf_BytePut, hbuf]
    refine ⟨?_, ht, trivial⟩
    show (if rb.head + 1 ≥ rb.size then 0 else rb.head + 1) < rb.size
    split <;> omega

/-- DataPut keeps both indices inside the capacity, on every path. -/
lemma dataPut_inv (input : List Nat) (len : Nat) (rb : RINGBUF) (hs : 0 < rb.size)
    (hh : rb.head < rb.size) (ht : rb.tail < rb.size) :
    (RingBuf_DataPut input len rb).2.head < rb.size ∧
    (RingBuf_DataPut input len rb).2.tail < rb.size ∧
    (RingBuf_DataPut input len rb).2.size = rb.size := by
  rcases hbuf : rb.buf with _ | l
  · simp only [RingBuf_DataPut, hbuf]
    exact ⟨hh, ht, trivial⟩
  · simp only [RingBuf_DataPut, hbuf]
    by_cases hov : len > rb.size
    · rw [if_pos hov]
      exact ⟨hh, ht, rfl⟩
    · rw [if_neg hov]
      by_cases hsp : len > rb.size - rb.head
      · rw [if_pos hsp]
        refine ⟨?_, ht, rfl⟩
        show (if len - (rb.size - rb.head) ≥ rb.size then 0
              else len - (rb.size - rb.head)) < rb.size
        split <;> omega
      · rw [if_neg hsp]
        refine ⟨?_, ht, rfl⟩
        show (if rb.head + len ≥ rb.size then 0 else rb.head + len) < rb.size
        split <;> omega

/-- ByteRead keeps both indices inside the capacity, on every path. -/
lemma byteRead_inv (b : Bool) (rb : RINGBUF) (hs : 0 < rb.size)
    (hh : rb.head < rb.size) (ht : rb.tail < rb.size) :
    (RingBuf_ByteRead b rb).2.2.head < rb.size ∧
    (RingBuf_ByteRead b rb).2.2.tail < rb.size ∧
    (RingBuf_ByteRead b rb).2.2.size = rb.size := by
  rcases hbuf : rb.buf with _ | l
  · simp only [RingBuf_ByteRead, hbuf]
    exact ⟨hh, ht, trivial⟩
  · simp only [RingBuf_ByteRead, hbuf]
    split
    · exact ⟨hh, ht, rfl⟩
    · refine ⟨hh, ?_, rfl⟩
      show (if rb.tail + 1 ≥ rb.size then 0 else rb.tail + 1) < rb.size
      split <;> omega

/-- DataRead keeps both indices inside the capacity, on every path
(including the reset-to-zero update, which always lands in range). -/
lemma dataRead_inv (b : Bool) (len : Nat) (rb : RINGBUF) (hs : 0 < rb.size)
    (hh : rb.head < rb.size) (ht : rb.tail < rb.size) :
    (RingBuf_DataRead b len rb).2.2.head < rb.size ∧
    (RingBuf_DataRead b len rb).2.2.tail < rb.size ∧
    (RingBuf_DataRead b len rb).2.2.size = rb.size := by
  rcases hbuf : rb.buf with _ | l
  · simp only [RingBuf_DataRead, hbuf]
    exact ⟨hh, ht, trivial⟩
  · simp only [RingBuf_DataRead, hbuf]
    split
    · exact ⟨hh, ht, rfl⟩
    · refine ⟨hh, ?_, rfl⟩
      show (if rb.tail + len ≥ rb.size then 0 else rb.tail + len) < rb.size
      split <;> omega

/-- Claim C1: read_many is claimed to behave like watch_many followed by
advancing tail by len modulo capacity.  The code instead resets tail to
0 whenever tail + len reaches or passes capacity.  Evaluation at the
failing input: capacity 4, tail = 3, read of length 2 succeeds, returns
exactly what watch returns, but leaves tail = 0 whereas
(3 + 2) mod 4 = 1. -/
theorem dataRead_tail_reset_bug :
    (RingBuf_DataRead true 2 ⟨some [1, 2, 3, 4], 3, 3, 4, 1⟩).1 = RINGBUF_OK ∧
    (RingBuf_DataRead true 2 ⟨some [1, 2, 3, 4], 3, 3, 4, 1⟩).2.1 =
      (RingBuf_DataWatch true 2 ⟨some [1, 2, 3, 4], 3, 3, 4, 1⟩).2 ∧
    (RingBuf_DataRead true 2 ⟨some [1, 2, 3, 4], 3, 3, 4, 1⟩).2.2.tail = 0 ∧
    (3 + 2) % 4 = 1 ∧
    (RingBuf_DataRead true 2 ⟨some [1, 2, 3, 4], 3, 3, 4, 1⟩).2.2.tail ≠
      (3 + 2) % 4 := by decide

/-- Claim C2, counterexample: on an unbound buffer (storage pointer
null), watch_many with a non-null output pointer does not return
ParamError: with length 0 it returns Ok (the C code checks only the out
pointer, never rb->buf). -/
theorem dataWatch_unbound_not_param_err :
    (RingBuf_DataWatch true 0 ⟨none, 0, 0, 4, 1⟩).1 = RINGBUF_OK ∧
    (RingBuf_DataWatch true 0 ⟨none, 0, 0, 4, 1⟩).1 ≠ RINGBUF_PARAM_ERR := by
  decide

/-- Claim C2, amended: on an unbound buffer every operation except the
watch family returns ParamError; the watch operations check only the
output pointer, returning ParamError exactly when it is null, and never
return ParamError on an unbound buffer with a non-null output. -/
theorem unbound_rejection_amended (rb : RINGBUF) (data len : Nat)
    (input : List Nat) (b : Bool) (hb : rb.buf = none) :
    (RingBuf_Clear rb).1 = RINGBUF_PARAM_ERR ∧
    (RingBuf_Available rb).1 = RINGBUF_PARAM_ERR ∧
    (RingBuf_BytePut data rb).1 = RINGBUF_PARAM_ERR ∧
    (RingBuf_CellPut data rb).1 = RINGBUF_PARAM_ERR ∧
    (RingBuf_DataPut input len rb).1 = RINGBUF_PARAM_ERR ∧
    (RingBuf_ByteRead b rb).1 = RINGBUF_PARAM_ERR ∧
    (RingBuf_CellRead b rb).1 = RINGBUF_PARAM_ERR ∧
    (RingBuf_DataRead b len rb).1 = RINGBUF_PARAM_ERR ∧
    (RingBuf_ByteWatch false rb).1 = RINGBUF_PARAM_ERR ∧
    (RingBuf_CellWatch false rb).1 = RINGBUF_PARAM_ERR ∧
    (RingBuf_DataWatch false len rb).1 = RINGBUF_PARAM_ERR ∧
    (RingBuf_DataWatch true len rb).1 ≠ RINGBUF_PARAM_ERR ∧
    (RingBuf_ByteWatch true rb).1 ≠ RINGBUF_PARAM_ERR := by
  refine ⟨?_, ?_, ?_, ?_, ?_, ?_, ?_, ?_, ?_, ?_, ?_, ?_, ?_⟩
  · simp [RingBuf_Clear, hb]
  · simp [RingBuf_Available, hb]
  · simp [RingBuf_BytePut, hb]
  · simp [RingBuf_CellPut, RingBuf_DataPut, hb]
  · simp [RingBuf_DataPut, hb]
  · simp [RingBuf_ByteRead, hb]
  · simp [RingBuf_CellRead, RingBuf_DataRead, hb]
  · simp [RingBuf_DataRead, hb]
  · simp [RingBuf_ByteWatch]
  · simp [RingBuf_CellWatch, RingBuf_DataWatch]
  · simp [RingBuf_DataWatch]
  · simp only [RingBuf_DataWatch]
    split
    · split
      · simp
      · split <;> simp
    · simp_all
  · simp [RingBuf_ByteWatch]

/-- Witness for the amended C2 theorem at a concrete unbound buffer. -/
theorem unbound_rejection_amended_witness :
    (RingBuf_Clear ⟨none, 5, 6, 4, 1⟩).1 = RINGBUF_PARAM_ERR ∧
    (RingBuf_Available ⟨none, 5, 6, 4, 1⟩).1 = RINGBUF_PARAM_ERR ∧
    (RingBuf_BytePut 0 ⟨none, 5, 6, 4, 1⟩).1 = RINGBUF_PARAM_ERR ∧
    (RingBuf_CellPut 0 ⟨none, 5, 6, 4, 1⟩).1 = RINGBUF_PARAM_ERR ∧
    (RingBuf_DataPut [1] 2 ⟨none, 5, 6, 4, 1⟩).1 = RINGBUF_PARAM_ERR ∧
    (RingBuf_ByteRead true ⟨none, 5, 6, 4, 1⟩).1 = RINGBUF_PARAM_ERR ∧
    (RingBuf_CellRead true ⟨none, 5, 6, 4, 1⟩).1 = RINGBUF_PARAM_ERR ∧
    (RingBuf_DataRead true 2 ⟨none, 5, 6, 4, 1⟩).1 = RINGBUF_PARAM_ERR ∧
    (RingBuf_ByteWatch false ⟨none, 5, 6, 4, 1⟩).1 = RINGBUF_PARAM_ERR ∧
    (RingBuf_CellWatch false ⟨none, 5, 6, 4, 1⟩).1 = RINGBUF_PARAM_ERR ∧
    (RingBuf_DataWatch false 2 ⟨none, 5, 6, 4, 1⟩).1 = RINGBUF_PARAM_ERR ∧
    (RingBuf_DataWatch true 2 ⟨none, 5, 6, 4, 1⟩).1 ≠ RINGBUF_PARAM_ERR ∧
    (RingBuf_ByteWatch true ⟨none, 5, 6, 4, 1⟩).1 ≠ RINGBUF_PARAM_ERR :=
  unbound_rejection_amended ⟨none, 5, 6, 4, 1⟩ 0 2 [1] true rfl

/-- Claim C3: FIFO order from every reachable bound state.  The claim
fails on the code: from the reachable state obtained by putting 3 cells
into a fresh capacity 4 buffer and reading them back (head = tail = 3),
putting the 3 cells 4, 5, 6 and then reading lengths 2 and 1 (total 3,
no interleaved reads during the puts) yields the concatenated output
4, 5, 5 instead of 4, 5, 6: the first read of length 2 wraps, and the
buggy tail update of read_many (reset to 0 instead of advance modulo
capacity, see C1) makes the second read re-read cell 0.  Every call in
the trace returns Ok. -/
theorem fifo_violation_trace :
    RingBuf_DataPut [1, 2, 3] 3 rbFresh4 =
      (RINGBUF_OK, ⟨some [1, 2, 3, 0], 0, 3, 4, 1⟩) ∧
    RingBuf_DataRead true 3 ⟨some [1, 2, 3, 0], 0, 3, 4, 1⟩ =
      (RINGBUF_OK, [1, 2, 3], ⟨some [1, 2, 3, 0], 3, 3, 4, 1⟩) ∧
    RingBuf_DataPut [4, 5, 6] 3 ⟨some [1, 2, 3, 0], 3, 3, 4, 1⟩ =
      (RINGBUF_OK, ⟨some [5, 6, 3, 4], 3, 2, 4, 1⟩) ∧
    RingBuf_DataRead true 2 ⟨some [5, 6, 3, 4], 3, 2, 4, 1⟩ =
      (RINGBUF_OK, [4, 5], ⟨some [5, 6, 3, 4], 0, 2, 4, 1⟩) ∧
    RingBuf_DataRead true 1 ⟨some [5, 6, 3, 4], 0, 2, 4, 1⟩ =
      (RINGBUF_OK, [5], ⟨some [5, 6, 3, 4], 1, 2, 4, 1⟩) ∧
    [4, 5] ++ [5] ≠ [4, 5, 6] := by decide

/-- Claim C4, counterexample: the claim quantifies over every reachable
bound state, but available() == m after putting m cells only holds from
an empty buffer.  rbMid3 is reachable (one put of the cell 9 into the
fresh capacity 3 buffer, checked in the first conjunct) and already
holds one cell; putting m = 1 further cell makes available() report 2,
not 1. -/
theorem available_after_put_counterexample :
    RingBuf_DataPut [9] 1 rbFresh3 = (RINGBUF_OK, rbMid3) ∧
    (RingBuf_Available (RingBuf_DataPut [7] 1 rbMid3).2).2 = some 2 ∧
    some (2 : Nat) ≠ some 1 := by decide

/-- Claim C4, amended: starting from a freshly cleared bound buffer
(head = tail = 0), after a sequence of puts totaling m cells with
m at most capacity and no interleaved reads, available() returns m
whenever m < capacity (for m = capacity it returns 0, the documented
full/empty ambiguity); after subsequently reading n cells in total with
n at most m (and n at least 1 when m = capacity), available() returns
m - n. -/
theorem available_accounting_amended (rb : RINGBUF) (chunks : List (List Nat))
    (lens : List Nat) (hb : rb.buf.isSome = true) (hh : rb.head = 0)
    (ht : rb.tail = 0) (hs : 0 < rb.size)
    (hm : (chunks.map List.length).sum ≤ rb.size)
    (hn : lens.sum ≤ (chunks.map List.length).sum) :
    ((chunks.map List.length).sum < rb.size →
      (RingBuf_Available (putSeq rb chunks)).2 =
        some ((chunks.map List.length).sum)) ∧
    (1 ≤ lens.sum ∨ (chunks.map List.length).sum < rb.size →
      (RingBuf_Available (readSeq (putSeq rb chunks) lens)).2 =
        some ((chunks.map List.length).sum - lens.sum)) := by
  have hchunk : ∀ c ∈ chunks, c.length ≤ rb.size := by
    intro c hc
    exact le_trans
      (List.single_le_sum (fun x _ => Nat.zero_le x) _
        (List.mem_map_of_mem List.length hc)) hm
  obtain ⟨hPh, hPt, hPs, hPb, _⟩ :=
    putSeq_state chunks rb hb hs (by rw [hh]; exact hs) hchunk
  obtain ⟨lp, hlp⟩ := Option.isSome_iff_exists.mp hPb
  have hhead : (putSeq rb chunks).head = (chunks.map List.length).sum % rb.size := by
    rw [hPh, hh, Nat.zero_add]
  have htail : (putSeq rb chunks).tail = 0 := by rw [hPt, ht]
  constructor
  · intro hlt
    simp only [RingBuf_Available, hlp]
    show some (if (putSeq rb chunks).head < (putSeq rb chunks).tail then
        (putSeq rb chunks).size - (putSeq rb chunks).tail + (putSeq rb chunks).head
      else (putSeq rb chunks).head - (putSeq rb chunks).tail) =
      some ((chunks.map List.length).sum)
    rw [hhead, htail, hPs, Nat.mod_eq_of_lt hlt]
    simp
  · intro hor
    obtain ⟨hRt, hRh, hRs, hRb, _⟩ :=
      readSeq_state lens (putSeq rb chunks) hPb
        (by rw [hPs]; exact hs)
        (by rw [htail, hPs]; exact hs)
        (by rw [htail, hPs]; omega)
    have hlp2 : (readSeq (putSeq rb chunks) lens).buf = some lp := by
      rw [hRb, hlp]
    simp only [RingBuf_Available, hlp2]
    show some (if (readSeq (putSeq rb chunks) lens).head <
          (readSeq (putSeq rb chunks) lens).tail then
        (readSeq (putSeq rb chunks) lens).size -
          (readSeq (putSeq rb chunks) lens).tail +
          (readSeq (putSeq rb chunks) lens).head
      else (readSeq (putSeq rb chunks) lens).head -
          (readSeq (putSeq rb chunks) lens).tail) =
      some ((chunks.map List.length).sum - lens.sum)
    rw [hRt, hRh, hRs, hhead, htail, Nat.zero_add, hPs]
    refine congrArg some ?_
    rcases Nat.lt_or_ge ((chunks.map List.length).sum) rb.size with hmlt | hmge
    · rw [Nat.mod_eq_of_lt hmlt, Nat.mod_eq_of_lt (by omega : lens.sum < rb.size)]
      split <;> omega
    · have hmeq : (chunks.map List.length).sum = rb.size := by omega
      rw [hmeq, Nat.mod_self]
      rcases Nat.lt_or_ge lens.sum rb.size with hnlt | hnge
      · rw [Nat.mod_eq_of_lt hnlt]
        rcases hor with h1 | h1
        · split <;> omega
        · omega
      · have hneq : lens.sum = rb.size := by omega
        rw [hneq, Nat.mod_self]
        split <;> omega

/-- Witness for the amended C4 theorem: fresh capacity 3 buffer, puts of
one cell then one cell (m = 2 < 3), then one read of one cell (n = 1):
available is 2 after the puts and 1 after the read. -/
theorem available_accounting_amended_witness :
    (RingBuf_Available (putSeq rbFresh3 [[1], [2]])).2 =
      some (([[1], [2]].map List.length).sum) ∧
    (RingBuf_Available (readSeq (putSeq rbFresh3 [[1], [2]]) [1])).2 =
      some (([[1], [2]].map List.length).sum - [1].sum) :=
  ⟨(available_accounting_amended rbFresh3 [[1], [2]] [1] rfl rfl rfl
      (by decide) (by decide) (by decide)).1 (by decide),
   (available_accounting_amended rbFresh3 [[1], [2]] [1] rfl rfl rfl
      (by decide) (by decide) (by decide)).2 (Or.inl (by decide))⟩

/-- Claim C9: from a freshly cleared bound buffer (head = tail = 0),
putting exactly capacity cells in total (any split into put_many calls,
no interleaved reads) makes available() return 0, the same value it
returns on the freshly cleared buffer. -/
theorem full_capacity_available_zero (rb : RINGBUF) (chunks : List (List Nat))
    (hb : rb.buf.isSome = true) (hh : rb.head = 0) (ht : rb.tail = 0)
    (hs : 0 < rb.size) (hm : (chunks.map List.length).sum = rb.size) :
    (RingBuf_Available (putSeq rb chunks)).2 = some 0 ∧
    (RingBuf_Available rb).2 = some 0 := by
  have hchunk : ∀ c ∈ chunks, c.length ≤ rb.size := by
    intro c hc
    refine le_trans
      (List.single_le_sum (fun x _ => Nat.zero_le x) _
        (List.mem_map_of_mem List.length hc)) (le_of_eq hm)
  obtain ⟨hPh, hPt, hPs, hPb, _⟩ :=
    putSeq_state chunks rb hb hs (by rw [hh]; exact hs) hchunk
  obtain ⟨lp, hlp⟩ := Option.isSome_iff_exists.mp hPb
  obtain ⟨l0, hl0⟩ := Option.isSome_iff_exists.mp hb
  constructor
  · simp only [RingBuf_Available, hlp]
    show some (if (putSeq rb chunks).head < (putSeq rb chunks).tail then
        (putSeq rb chunks).size - (putSeq rb chunks).tail + (putSeq rb chunks).head
      else (putSeq rb chunks).head - (putSeq rb chunks).tail) = some 0
    rw [hPh, hPt, hh, ht, Nat.zero_add, hm, Nat.mod_self]
    simp
  · simp only [RingBuf_Available, hl0]
    show some (if rb.head < rb.tail then rb.size - rb.tail + rb.head
      else rb.head - rb.tail) = some 0
    rw [hh, ht]
    simp

/-- Witness for C9: fresh capacity 4 buffer filled by puts of lengths 3
and 1. -/
theorem full_capacity_available_zero_witness :
    (RingBuf_Available (putSeq rbFresh4 [[1, 2, 3], [4]])).2 = some 0 ∧
    (RingBuf_Available rbFresh4).2 = some 0 :=
  full_capacity_available_zero rbFresh4 [[1, 2, 3], [4]] rfl rfl rfl
    (by decide) (by decide)

/-- Claim C5: on a bound buffer, put_many, read_many and watch_many with
len > capacity return Overflow and leave the state (head and tail in
particular) unchanged, and with len at most capacity they never return
Overflow.  The read and watch calls are taken with a non-null output
pointer (a null output is reported as ParamError before the length
check). -/
theorem overflow_rejection (rb : RINGBUF) (l input : List Nat) (len : Nat)
    (hb : rb.buf = some l) :
    (len > rb.size →
      RingBuf_DataPut input len rb = (RINGBUF_OVERFLOW, rb) ∧
      RingBuf_DataRead true len rb = (RINGBUF_OVERFLOW, [], rb) ∧
      (RingBuf_DataWatch true len rb).1 = RINGBUF_OVERFLOW) ∧
    (len ≤ rb.size →
      (RingBuf_DataPut input len rb).1 ≠ RINGBUF_OVERFLOW ∧
      (RingBuf_DataRead true len rb).1 ≠ RINGBUF_OVERFLOW ∧
      (RingBuf_DataWatch true len rb).1 ≠ RINGBUF_OVERFLOW) := by
  constructor
  · intro hgt
    have hw : RingBuf_DataWatch true len rb = (RINGBUF_OVERFLOW, []) := by
      simp only [RingBuf_DataWatch]
      rw [if_pos hgt]
      exact if_pos trivial
    refine ⟨?_, ?_, by rw [hw]⟩
    · simp only [RingBuf_DataPut, hb]
      rw [if_pos hgt]
    · simp only [RingBuf_DataRead, hb, hw]
      rw [if_pos (by decide : ((RINGBUF_OVERFLOW, ([] : List Nat)).1 ≠ RINGBUF_OK))]
  · intro hle
    have hwOK : (RingBuf_DataWatch true len rb).1 = RINGBUF_OK := by
      by_cases hsp : len > rb.size - rb.tail
      · have hw : RingBuf_DataWatch true len rb =
            (RINGBUF_OK, readAt l rb.tail (rb.size - rb.tail) ++
              readAt l 0 (len - (rb.size - rb.tail))) := by
          simp only [RingBuf_DataWatch, hb, Option.getD_some]
          rw [if_neg (by omega : ¬ len > rb.size), if_pos hsp]
          exact if_pos trivial
        rw [hw]
      · have hw : RingBuf_DataWatch true len rb =
            (RINGBUF_OK, readAt l rb.tail len) := by
          simp only [RingBuf_DataWatch, hb, Option.getD_some]
          rw [if_neg (by omega : ¬ len > rb.size), if_neg hsp]
          exact if_pos trivial
        rw [hw]
    have hput : (RingBuf_DataPut input len rb).1 = RINGBUF_OK := by
      simp only [RingBuf_DataPut, hb]
      rw [if_neg (by omega : ¬ len > rb.size)]
      split <;> rfl
    refine ⟨by rw [hput]; decide, ?_, by rw [hwOK]; decide⟩
    rw [(dataRead_watch true len rb l hb).1, hwOK]
    decide

/-- Witness for C5 on the fresh capacity 3 buffer: a put of length 5
is rejected with Overflow and no state change, a put of length 2 does
not return Overflow. -/
theorem overflow_rejection_witness :
    RingBuf_DataPut [9] 5 rbFresh3 = (RINGBUF_OVERFLOW, rbFresh3) ∧
    (RingBuf_DataPut [9, 9] 2 rbFresh3).1 ≠ RINGBUF_OVERFLOW :=
  ⟨((overflow_rejection rbFresh3 [0, 0, 0] [9] 5 rfl).1 (by decide)).1,
   ((overflow_rejection rbFresh3 [0, 0, 0] [9, 9] 2 rfl).2 (by decide)).1⟩

/-- Claim C6, counterexample: init with a null storage pointer returns
ParamError as claimed, but does not reset head and tail to zero: the
embedded RingBuf_Clear call bails out with ParamError before touching
the indices, so the stale values 3 and 2 survive. -/
theorem init_null_no_reset :
    (RingBuf_Init none 4 1 rbStale).1 = RINGBUF_PARAM_ERR ∧
    (RingBuf_Init none 4 1 rbStale).2.head = 3 ∧
    (RingBuf_Init none 4 1 rbStale).2.tail = 2 ∧
    (RingBuf_Init none 4 1 rbStale).2.head ≠ 0 ∧
    (RingBuf_Init none 4 1 rbStale).2.tail ≠ 0 := by decide

/-- Claim C6, amended: init always binds the buffer to the given storage
and records size and cell_size; it returns ParamError exactly when the
storage is null and Ok otherwise; it resets head and tail to zero when
the storage is non-null, and leaves them unchanged when it is null. -/
theorem init_behavior (storage : Option (List Nat)) (size cs : Nat)
    (rb : RINGBUF) :
    (RingBuf_Init storage size cs rb).2.buf = storage ∧
    (RingBuf_Init storage size cs rb).2.size = size ∧
    (RingBuf_Init storage size cs rb).2.cell_size = cs ∧
    (RingBuf_Init storage size cs rb).1 =
      (if storage.isSome then RINGBUF_OK else RINGBUF_PARAM_ERR) ∧
    (RingBuf_Init storage size cs rb).2.head =
      (if storage.isSome then 0 else rb.head) ∧
    (RingBuf_Init storage size cs rb).2.tail =
      (if storage.isSome then 0 else rb.tail) := by
  rcases storage with _ | l <;> simp [RingBuf_Init, RingBuf_Clear]

/-- Claim C7: a put never mutates tail (on any path, in particular on
success); a read never mutates head or the storage; a read returns
exactly the status and data of the underlying watch, so a read right
after a watch returns the same data the watch returned.  The watch
itself takes the state only as input and returns no state at all in
this embedding, mirroring that the C function writes only through the
out pointer and a local cursor (RingBuffer.c lines 216-233), so a watch
followed by available trivially returns the same count as available
before the watch. -/
theorem put_read_watch_frame (rb : RINGBUF) (l input : List Nat) (len : Nat)
    (hb : rb.buf = some l) :
    (RingBuf_DataPut input len rb).2.tail = rb.tail ∧
    (RingBuf_DataRead true len rb).2.2.head = rb.head ∧
    (RingBuf_DataRead true len rb).2.2.buf = rb.buf ∧
    (RingBuf_DataRead true len rb).2.1 = (RingBuf_DataWatch true len rb).2 ∧
    (RingBuf_DataRead true len rb).1 = (RingBuf_DataWatch true len rb).1 :=
  ⟨(dataPut_frame input len rb).1,
   (dataRead_frame true len rb).1,
   (dataRead_frame true len rb).2.1,
   (dataRead_watch true len rb l hb).2,
   (dataRead_watch true len rb l hb).1⟩

/-- Witness for C7 on the reachable one-cell buffer rbMid3. -/
theorem put_read_watch_frame_witness :
    (RingBuf_DataPut [7, 8] 2 rbMid3).2.tail = rbMid3.tail ∧
    (RingBuf_DataRead true 2 rbMid3).2.2.head = rbMid3.head ∧
    (RingBuf_DataRead true 2 rbMid3).2.2.buf = rbMid3.buf ∧
    (RingBuf_DataRead true 2 rbMid3).2.1 = (RingBuf_DataWatch true 2 rbMid3).2 ∧
    (RingBuf_DataRead true 2 rbMid3).1 = (RingBuf_DataWatch true 2 rbMid3).1 :=
  put_read_watch_frame rbMid3 [9, 0, 0] [7, 8] 2 rfl

/-- Claim C8: every state-mutating operation preserves head < capacity
and tail < capacity (and the capacity itself), for any buffer with
capacity at least 1 whose indices start in range; put_one and read_one
are the len = 1 instances of the DataPut and DataRead conjuncts, and
available and the watch family take the state only as input (they
return no state in this embedding, as in the C code), so they preserve
the invariant trivially. -/
theorem index_range_invariant (rb : RINGBUF) (input : List Nat)
    (len data : Nat) (b : Bool) (hs : 0 < rb.size) (hh : rb.head < rb.size)
    (ht : rb.tail < rb.size) :
    ((RingBuf_Clear rb).2.head < rb.size ∧ (RingBuf_Clear rb).2.tail < rb.size ∧
      (RingBuf_Clear rb).2.size = rb.size) ∧
    ((RingBuf_BytePut data rb).2.head < rb.size ∧
      (RingBuf_BytePut data rb).2.tail < rb.size ∧
      (RingBuf_BytePut data rb).2.size = rb.size) ∧
    ((RingBuf_DataPut input len rb).2.head < rb.size ∧
      (RingBuf_DataPut input len rb).2.tail < rb.size ∧
      (RingBuf_DataPut input len rb).2.size = rb.size) ∧
    ((RingBuf_CellPut data rb).2.head < rb.size ∧
      (RingBuf_CellPut data rb).2.tail < rb.size ∧
      (RingBuf_CellPut data rb).2.size = rb.size) ∧
    ((RingBuf_ByteRead b rb).2.2.head < rb.size ∧
      (RingBuf_ByteRead b rb).2.2.tail < rb.size ∧
      (RingBuf_ByteRead b rb).2.2.size = rb.size) ∧
    ((RingBuf_DataRead b len rb).2.2.head < rb.size ∧
      (RingBuf_DataRead b len rb).2.2.tail < rb.size ∧
      (RingBuf_DataRead b len rb).2.2.size = rb.size) ∧
    ((RingBuf_CellRead b rb).2.2.head < rb.size ∧
      (RingBuf_CellRead b rb).2.2.tail < rb.size ∧
      (RingBuf_CellRead b rb).2.2.size = rb.size) :=
  ⟨clear_inv rb hs hh ht,
   bytePut_inv data rb hs hh ht,
   dataPut_inv input len rb hs hh ht,
   dataPut_inv [data] 1 rb hs hh ht,
   byteRead_inv b rb hs hh ht,
   dataRead_inv b len rb hs hh ht,
   dataRead_inv b 1 rb hs hh ht⟩

/-- Witness for C8 at a concrete in-range state, extracting the DataPut
and DataRead conjuncts. -/
theorem index_range_invariant_witness :
    ((RingBuf_DataPut [8, 9] 2 ⟨some [1, 2, 3], 1, 2, 3, 1⟩).2.head < 3 ∧
      (RingBuf_DataPut [8, 9] 2 ⟨some [1, 2, 3], 1, 2, 3, 1⟩).2.tail < 3 ∧
      (RingBuf_DataPut [8, 9] 2 ⟨some [1, 2, 3], 1, 2, 3, 1⟩).2.size = 3) ∧
    ((RingBuf_DataRead true 2 ⟨some [1, 2, 3], 1, 2, 3, 1⟩).2.2.head < 3 ∧
      (RingBuf_DataRead true 2 ⟨some [1, 2, 3], 1, 2, 3, 1⟩).2.2.tail < 3 ∧
      (RingBuf_DataRead true 2 ⟨some [1, 2, 3], 1, 2, 3, 1⟩).2.2.size = 3) :=
  ⟨(index_range_invariant ⟨some [1, 2, 3], 1, 2, 3, 1⟩ [8, 9] 2 5 true
      (by decide) (by decide) (by decide)).2.2.1,
   (index_range_invariant ⟨some [1, 2, 3], 1, 2, 3, 1⟩ [8, 9] 2 5 true
      (by decide) (by decide) (by decide)).2.2.2.2.2.1⟩

/-- Claim C10: on a bound buffer with a non-null output pointer and any
len with 0 < len and len at most capacity, watch_many and read_many
return Ok whatever head and tail are (no check against the occupied
count), and the copied data is exactly the current storage contents at
the len positions from tail taken modulo capacity, occupied or not. -/
theorem watch_read_no_occupancy_check (rb : RINGBUF) (l : List Nat) (len : Nat)
    (hb : rb.buf = some l) (ht : rb.tail < rb.size) (hpos : 0 < len)
    (hlen : len ≤ rb.size) :
    (RingBuf_DataWatch true len rb).1 = RINGBUF_OK ∧
    (RingBuf_DataRead true len rb).1 = RINGBUF_OK ∧
    (RingBuf_DataWatch true len rb).2 = wrapRead l rb.size rb.tail len := by
  by_cases hsp : len > rb.size - rb.tail
  · have hw : RingBuf_DataWatch true len rb =
        (RINGBUF_OK, readAt l rb.tail (rb.size - rb.tail) ++
          readAt l 0 (len - (rb.size - rb.tail))) := by
      simp only [RingBuf_DataWatch, hb, Option.getD_some]
      rw [if_neg (by omega : ¬ len > rb.size), if_pos hsp]
      exact if_pos trivial
    refine ⟨by rw [hw], ?_, ?_⟩
    · rw [(dataRead_watch true len rb l hb).1, hw]
    · rw [hw]
      exact readAt_append_eq_wrapRead l rb.size rb.tail len ht hlen hsp
  · have hw : RingBuf_DataWatch true len rb =
        (RINGBUF_OK, readAt l rb.tail len) := by
      simp only [RingBuf_DataWatch, hb, Option.getD_some]
      rw [if_neg (by omega : ¬ len > rb.size), if_neg hsp]
      exact if_pos trivial
    refine ⟨by rw [hw], ?_, ?_⟩
    · rw [(dataRead_watch true len rb l hb).1, hw]
    · rw [hw]
      exact readAt_eq_wrapRead_of_fit l rb.size rb.tail len (by omega)

/-- Witness for C10 at an empty buffer (head = tail, available 0) whose
watch of length 2 wraps and still returns Ok with the stale cells 40
and 10. -/
theorem watch_read_no_occupancy_check_witness :
    (RingBuf_DataWatch true 2 ⟨some [10, 20, 30, 40], 3, 3, 4, 1⟩).1 =
      RINGBUF_OK ∧
    (RingBuf_DataRead true 2 ⟨some [10, 20, 30, 40], 3, 3, 4, 1⟩).1 =
      RINGBUF_OK ∧
    (RingBuf_DataWatch true 2 ⟨some [10, 20, 30, 40], 3, 3, 4, 1⟩).2 =
      wrapRead [10, 20, 30, 40] 4 3 2 :=
  watch_read_no_occupancy_check ⟨some [10, 20, 30, 40], 3, 3, 4, 1⟩
    [10, 20, 30, 40] 2 rfl (by decide) (by decide) (by decide)
